import Mathlib

/-!
# QuartiCal — shallow embedding and verification of spec claims

This file embeds, in Lean 4, the parts of the QuartiCal code base that the
frozen claims are about, and settles each claim against the embedding.

The embedded fragments are:

* `quartical/flagging/flagging.py` — `_initialise_flags` and the MAD-flag
  merge step of `add_mad_graph`;
* `quartical/data_handling/ms_handler.py` — the data-zeroing and
  weight-zeroing steps of `preprocess_xds_list`;
* `quartical/gains/rotation_measure/__init__.py` — `make_f_maps`
  (duration / float branch);
* `quartical/gains/delay/kernel.py` — `param_to_gain_factory` (4-corr),
  `finalize_update` (4-corr), and the control skeleton of `delay_solver`
  (frequency scaling, Gauss–Newton iteration loop, early exit).

Machine complex values are modelled by `ℂ`; real-valued solver data
(frequencies, parameters, weights) by `ℚ`, which keeps concrete evaluation
decidable.  Arrays are total functions from index tuples; in-place writes are
`Function.update` folded over the index lists in source loop order.
-/

namespace QuartiCal

/-! ## Visibility flag initialisation — `flagging.py::_initialise_flags`

`_initialise_flags(data_col, weight_col, flag_col, flag_row_col)` receives a
`(row, chan, corr)` data / weight block together with the conventional flag
and row-flag columns.  The correlation axis has `n + 1` entries (`corr ∈
{1, 2, 4}` in the source); numpy's `(0, -1)` fancy index selects the first
and last correlation, modelled here by `0 : Fin (n+1)` and `Fin.last n`.

A complex visibility datum is modelled as `ℚ × ℚ` (real and imaginary
parts); a possibly non-finite datum as `Option (ℚ × ℚ)` with `none` playing
the role of NaN/Inf so that `da.isfinite` is `Option.isSome`.
-/

/-- `flags = flag_col | flag_row_col[:, None, None]` (per correlation). -/
def combinedFlags {n : ℕ} (flagCol : ℕ → ℕ → Fin (n + 1) → Bool)
    (flagRowCol : ℕ → Bool) (r c : ℕ) (k : Fin (n + 1)) : Bool :=
  flagCol r c k || flagRowCol r

/-- `missing_points = np.any(data_col[..., (0, -1)] == 0, axis=-1)`. -/
def missingPoints {n : ℕ} (dataCol : ℕ → ℕ → Fin (n + 1) → ℚ × ℚ)
    (r c : ℕ) : Bool :=
  dataCol r c 0 = (0, 0) || dataCol r c (Fin.last n) = (0, 0)

/-- `noweight_points = np.any(weight_col[..., (0, -1)] == 0, axis=-1)`. -/
def noweightPoints {n : ℕ} (weightCol : ℕ → ℕ → Fin (n + 1) → ℚ)
    (r c : ℕ) : Bool :=
  weightCol r c 0 = 0 || weightCol r c (Fin.last n) = 0

/-- Per-correlation flags after `flags[missing_points] = True` and
`flags[noweight_points] = True` (both assignments act on all correlations of
the selected `(row, chan)` positions). -/
def perCorrFlags {n : ℕ} (dataCol : ℕ → ℕ → Fin (n + 1) → ℚ × ℚ)
    (weightCol : ℕ → ℕ → Fin (n + 1) → ℚ)
    (flagCol : ℕ → ℕ → Fin (n + 1) → Bool) (flagRowCol : ℕ → Bool)
    (r c : ℕ) (k : Fin (n + 1)) : Bool :=
  combinedFlags flagCol flagRowCol r c k || missingPoints dataCol r c ||
    noweightPoints weightCol r c

/-- `_initialise_flags`: the aggregate `(row, chan)` flag,
`np.any(flags, axis=-1)`. -/
def initialiseFlags {n : ℕ} (dataCol : ℕ → ℕ → Fin (n + 1) → ℚ × ℚ)
    (weightCol : ℕ → ℕ → Fin (n + 1) → ℚ)
    (flagCol : ℕ → ℕ → Fin (n + 1) → Bool) (flagRowCol : ℕ → Bool)
    (r c : ℕ) : Bool :=
  (List.finRange (n + 1)).any
    (fun k => perCorrFlags dataCol weightCol flagCol flagRowCol r c k)

/-! ## Preprocessing — `ms_handler.py::preprocess_xds_list`

`data_col = da.where(da.isfinite(data_col), data_col, 0)` zeroes every
non-finite datum, then the aggregate flags are initialised from the zeroed
data, and `weight_col = da.where(flag_col, 0, weight_col)` zeroes the
weights wherever the aggregate flag is set. -/

/-- `da.where(da.isfinite(data_col), data_col, 0)` at one datum. -/
def zeroNonFinite (d : Option (ℚ × ℚ)) : ℚ × ℚ :=
  d.getD (0, 0)

/-- The zeroed data column. -/
def preprocessData {n : ℕ} (dataCol : ℕ → ℕ → Fin (n + 1) → Option (ℚ × ℚ))
    (r c : ℕ) (k : Fin (n + 1)) : ℚ × ℚ :=
  zeroNonFinite (dataCol r c k)

/-- The aggregate flags produced by preprocessing: `initialise_flags` applied
to the zeroed data. -/
def preprocessFlags {n : ℕ} (dataCol : ℕ → ℕ → Fin (n + 1) → Option (ℚ × ℚ))
    (weightCol : ℕ → ℕ → Fin (n + 1) → ℚ)
    (flagCol : ℕ → ℕ → Fin (n + 1) → Bool) (flagRowCol : ℕ → Bool)
    (r c : ℕ) : Bool :=
  initialiseFlags (preprocessData dataCol) weightCol flagCol flagRowCol r c

/-- `weight_col = da.where(flag_col, 0, weight_col)`: the weights handed to
the solver after preprocessing. -/
def preprocessWeights {n : ℕ}
    (dataCol : ℕ → ℕ → Fin (n + 1) → Option (ℚ × ℚ))
    (weightCol : ℕ → ℕ → Fin (n + 1) → ℚ)
    (flagCol : ℕ → ℕ → Fin (n + 1) → Bool) (flagRowCol : ℕ → Bool)
    (r c : ℕ) (k : Fin (n + 1)) : ℚ :=
  if preprocessFlags dataCol weightCol flagCol flagRowCol r c then 0
  else weightCol r c k

/-! ## MAD flag merge — `flagging.py::add_mad_graph`

After the MAD statistics produce the boolean outlier mask `mad_flags`, the
data flag column is updated by `flag_col = da.where(mad_flags, 1, flag_col)`.
Data flags are `int8` (`0` clear, `1` set, `-1` temporary), modelled by `ℤ`.
-/

/-- `da.where(mad_flags, 1, flag_col)` at one `(row, chan)` position. -/
def madMergeFlags (madFlags : ℕ → ℕ → Bool) (flagCol : ℕ → ℕ → ℤ)
    (r c : ℕ) : ℤ :=
  if madFlags r c then 1 else flagCol r c

/-! ## Frequency interval mapping — `rotation_measure/__init__.py::make_f_maps`

For a duration-type (float) frequency interval `f_int`, the parameter row of
the mapping is built by the loop

```
net_ivl = 0
bin_num = 0
for i, ivl in enumerate(chan_widths):
    f_map_arr[1, i] = bin_num
    net_ivl += ivl
    if net_ivl >= f_int:
        net_ivl = 0
        bin_num += 1
```

`fMapGo` is that loop with the mutable state `(net_ivl, bin_num)` threaded
explicitly; `makeFMapsFloat` starts it from `(0, 0)` as the source does. -/

/-- The body of the duration-case loop of `make_f_maps`, with explicit state:
`net` is `net_ivl`, `bin` is `bin_num`. -/
def fMapGo (fInt : ℚ) : ℚ → ℕ → List ℚ → List ℕ
  | _, _, [] => []
  | net, bin, ivl :: rest =>
      let net' := net + ivl
      if fInt ≤ net' then bin :: fMapGo fInt 0 (bin + 1) rest
      else bin :: fMapGo fInt net' bin rest

/-- `make_f_maps` (float branch): the per-channel parameter bin indices. -/
def makeFMapsFloat (chanWidths : List ℚ) (fInt : ℚ) : List ℕ :=
  fMapGo fInt 0 0 chanWidths

/-- State recurrence of the duration-case loop: `netAfter k` is the value of
`net_ivl` when the loop reaches channel `k`. -/
def netAfter (fInt : ℚ) (ws : List ℚ) : ℕ → ℚ
  | 0 => 0
  | k + 1 =>
      let x := netAfter fInt ws k + ws.getD k 0
      if fInt ≤ x then 0 else x

/-- State recurrence of the duration-case loop: `binAfter k` is the value of
`bin_num` when the loop reaches channel `k`; channel `k` is assigned bin
`binAfter k`. -/
def binAfter (fInt : ℚ) (ws : List ℚ) : ℕ → ℕ
  | 0 => 0
  | k + 1 =>
      if fInt ≤ netAfter fInt ws k + ws.getD k 0 then binAfter fInt ws k + 1
      else binAfter fInt ws k

/-- The width accumulated by the bin containing channel `i`, over the
channels `j ≤ i` of that same bin, as read off an already-built map. -/
def currentBinWidth (m : List ℕ) (ws : List ℚ) (i : ℕ) : ℚ :=
  ∑ j ∈ Finset.range (i + 1),
    if m.getD j 0 = m.getD i 0 then ws.getD j 0 else 0

/-! ## Delay solver control skeleton — `delay/kernel.py::delay_solver`

The solver scales the channel frequencies by `1/ν_min` and the delay (odd
indexed) parameters by `ν_min` on entry, runs at most `max_iter` damped
Gauss–Newton iterations with an early exit as soon as an iteration's
converged percentage exceeds `stop_frac`, and divides the delay parameters
by `ν_min` again before returning.

The per-iteration work (`compute_residual_solver`, `compute_jhj_jhr`,
`compute_update`, `finalize_update`, `update_gain_flags`) acts on solver
state of type `σ` through the abstract `step`, and the converged percentage
produced by an iteration is read off the post-iteration state by `convOf`,
exactly as `update_gain_flags` returns it. -/

/-- `np.min` over a nonempty list (head and tail supplied separately). -/
def listMin (x : ℚ) (xs : List ℚ) : ℚ :=
  xs.foldl min x

/-- `active_params[..., 1::2] *= min_freq`: scale the odd-indexed (delay)
parameters, leaving the even-indexed (phase offset) parameters untouched.
Parameters are indexed by `(t, f, ant, dir)` and the parameter axis. -/
def scaleDelays (m : ℚ) (p : ℕ × ℕ × ℕ × ℕ → Fin 4 → ℚ)
    (idx : ℕ × ℕ × ℕ × ℕ) (i : Fin 4) : ℚ :=
  if i.val % 2 = 1 then p idx i * m else p idx i

/-- `active_params[..., 1::2] /= min_freq`: undo the delay scaling. -/
def unscaleDelays (m : ℚ) (p : ℕ × ℕ × ℕ × ℕ → Fin 4 → ℚ)
    (idx : ℕ × ℕ × ℕ × ℕ) (i : Fin 4) : ℚ :=
  if i.val % 2 = 1 then p idx i / m else p idx i

/-- `for loop_idx in range(max_iter): ... if conv_perc > stop_frac: break`,
returning the number of iterations performed together with the final state.
The returned count is the source's `loop_idx + 1` when at least one
iteration ran. -/
def gnLoop {σ : Type} (step : σ → σ) (convOf : σ → ℚ) (stopFrac : ℚ) :
    ℕ → σ → ℕ × σ
  | 0, s => (0, s)
  | n + 1, s =>
      let s' := step s
      if stopFrac < convOf s' then (1, s')
      else
        let r := gnLoop step convOf stopFrac n s'
        (r.1 + 1, r.2)

/-- Solver state: the active term's parameters together with the remaining
solver state (gains, flags, intermediaries), kept abstract as `σ`. -/
def DelayState (σ : Type) : Type :=
  (ℕ × ℕ × ℕ × ℕ → Fin 4 → ℚ) × σ

/-- The control skeleton of `delay_solver`: frequency/delay scaling on
entry, the bounded iteration loop with early exit, and the inverse delay
scaling on exit.  Returns the parameters handed back, the rest of the final
state, and the convergence statistics `(conv_iters, conv_perc)`. -/
def delaySolver {σ : Type} (step : DelayState σ → DelayState σ)
    (convOf : DelayState σ → ℚ) (stopFrac : ℚ) (maxIter : ℕ)
    (cf : ℚ) (cfs : List ℚ) (params : ℕ × ℕ × ℕ × ℕ → Fin 4 → ℚ) (s : σ) :
    (ℕ × ℕ × ℕ × ℕ → Fin 4 → ℚ) × σ × ℕ × ℚ :=
  let minFreq := listMin cf cfs
  let entry : DelayState σ := (scaleDelays minFreq params, s)
  let r := gnLoop step convOf stopFrac maxIter entry
  (unscaleDelays minFreq r.2.1, r.2.2, r.1, convOf r.2)

/-- `scaled_cf = chan_freqs.copy(); scaled_cf /= min_freq`: the scaled
frequencies the iteration body works with. -/
def scaledChanFreqs (cf : ℚ) (cfs : List ℚ) : List ℚ :=
  (cf :: cfs).map (fun x => x / listMin cf cfs)

/-! ## Delay parameter-to-gain map and `finalize_update` (4 correlations)

`param_to_gain_factory` for `corr_mode == 4` produces

```
gain[0] = np.exp(1j*(chanfreq*params[1] + params[0]))
gain[3] = np.exp(1j*(chanfreq*params[3] + params[2]))
```

so only the on-diagonal (XX, YY) entries are written; `gain[1]` and
`gain[2]` keep their previous values.  `set_identity` writes
`(1, 0, 0, 1)`.  A gain cell is `Fin 4 → K` in the MS row-major order
(XX, XY, YX, YY); a parameter cell is `Fin 4 → ℚ` in the order
(phase_offset_XX, delay_XX, phase_offset_YY, delay_YY).

The machine complex scalar is a type parameter `K` and the machine
exponential `np.exp(1j*x)` an explicit function argument `cexp : ℚ → K`;
theorems instantiate `K := ℂ` and `cexp x := Complex.exp (I·x)` where the
value of the exponential matters, while the kernel definitions themselves
stay computable. -/

/-- Index space of the gain grid: `(t, f, ant, dir)`. -/
abbrev Idx4 : Type := ℕ × ℕ × ℕ × ℕ

/-- A 4-correlation gain cell over the machine scalar `K`. -/
abbrev GainCell (K : Type) : Type := Fin 4 → K

/-- A delay-term parameter cell (two parameters per on-diagonal corr). -/
abbrev ParamCell : Type := Fin 4 → ℚ

/-- `set_identity` for 4 correlations: the cell becomes `(1, 0, 0, 1)`. -/
def setIdentity4 {K : Type} [One K] [Zero K] : GainCell K :=
  fun i => if i = 0 ∨ i = 3 then 1 else 0

/-- `param_to_gain` for 4 correlations: writes the on-diagonal entries from
the parameters and the channel frequency, leaves the off-diagonal entries of
the cell as they were. -/
def paramToGain4 {K : Type} (cexp : ℚ → K) (p : ParamCell) (chanfreq : ℚ)
    (g : GainCell K) : GainCell K :=
  fun i =>
    if i = 0 then cexp (chanfreq * p 1 + p 0)
    else if i = 3 then cexp (chanfreq * p 3 + p 2)
    else g i

/-- The per-cell body of the `finalize_update` gain loop:
`if fl == 1: set_identity(g) else: param_to_gain(p, cf, g)`, with
`p = params[t, f_map_arr_p[f], a, d_map_arr[d]]` and `cf = scaled_cf[f]`. -/
def finalizeCell {K : Type} [One K] [Zero K] (cexp : ℚ → K)
    (gainFlags : Idx4 → ℤ) (params : Idx4 → ParamCell)
    (fMapP : ℕ → ℕ) (dMap : ℕ → ℕ) (scaledCf : ℕ → ℚ)
    (idx : Idx4) (g : GainCell K) : GainCell K :=
  if gainFlags idx = 1 then setIdentity4
  else
    paramToGain4 cexp (params (idx.1, fMapP idx.2.1, idx.2.2.1, dMap idx.2.2.2))
      (scaledCf idx.2.1) g

/-- The gain-grid index list traversed by the four nested loops of
`finalize_update`, in source order. -/
def idxList (nTime nFreq nAnt nDir : ℕ) : List Idx4 :=
  (List.range nTime).flatMap fun t =>
    (List.range nFreq).flatMap fun f =>
      (List.range nAnt).flatMap fun a =>
        (List.range nDir).map fun d => (t, f, a, d)

/-- One in-place write of the gain loop: cell `idx` is replaced by the body
applied to its previous value. -/
def writeCell {K : Type} (body : Idx4 → GainCell K → GainCell K)
    (g : Idx4 → GainCell K) (idx : Idx4) : Idx4 → GainCell K :=
  Function.update g idx (body idx (g idx))

/-- `finalize_update` for 4 correlations: `update /= 2`, `params += update`,
then rewrite every `(t, f, a, d)` gain cell from the updated parameters
(identity where hard-flagged).  Returns the new gain grid and the new
parameters. -/
def finalizeUpdate4 {K : Type} [One K] [Zero K] (cexp : ℚ → K)
    (gain : Idx4 → GainCell K) (gainFlags : Idx4 → ℤ)
    (params update : Idx4 → ParamCell) (fMapP : ℕ → ℕ) (dMap : ℕ → ℕ)
    (scaledCf : ℕ → ℚ) (nTime nFreq nAnt nDir : ℕ) :
    (Idx4 → GainCell K) × (Idx4 → ParamCell) :=
  let halfUpdate : Idx4 → ParamCell := fun idx i => update idx i / 2
  let newParams : Idx4 → ParamCell := fun idx i => params idx i + halfUpdate idx i
  let body := finalizeCell cexp gainFlags newParams fMapP dMap scaledCf
  ((idxList nTime nFreq nAnt nDir).foldl (writeCell body) gain, newParams)

/-- Several solver iterations as seen by the gain grid: each iteration
contributes its own update array and the gain-flag array current at its
`finalize_update` call, and the gains are rewritten each time.  (The
parameter state is threaded through `finalizeUpdate4` as in the source.) -/
def iterFinalize4 {K : Type} [One K] [Zero K] (cexp : ℚ → K)
    (fMapP : ℕ → ℕ) (dMap : ℕ → ℕ) (scaledCf : ℕ → ℚ)
    (nTime nFreq nAnt nDir : ℕ) :
    List ((Idx4 → ℤ) × (Idx4 → ParamCell)) →
    (Idx4 → GainCell K) × (Idx4 → ParamCell) →
    (Idx4 → GainCell K) × (Idx4 → ParamCell)
  | [], st => st
  | (flags, update) :: rest, st =>
      iterFinalize4 cexp fMapP dMap scaledCf nTime nFreq nAnt nDir rest
        (finalizeUpdate4 cexp st.1 flags st.2 update fMapP dMap scaledCf
          nTime nFreq nAnt nDir)

/-! ## Helper lemmas: loop-to-pointwise characterisations -/

lemma foldl_writeCell_eq {K : Type} (body : Idx4 → GainCell K → GainCell K)
    (l : List Idx4) (hl : l.Nodup) (g : Idx4 → GainCell K) (x : Idx4) :
    l.foldl (writeCell body) g x = if x ∈ l then body x (g x) else g x := by
  induction l generalizing g with
  | nil => simp
  | cons a l ih =>
      obtain ⟨ha, hl'⟩ := List.nodup_cons.mp hl
      rw [List.foldl_cons, ih hl']
      rcases eq_or_ne x a with rfl | hxa
      · rw [if_neg ha, if_pos (List.mem_cons_self x l)]
        simp [writeCell]
      · have hup : writeCell body g a x = g x := by
          simp [writeCell, Function.update_noteq hxa]
        rw [hup]
        by_cases hx : x ∈ l
        · rw [if_pos hx, if_pos (List.mem_cons_of_mem a hx)]
        · rw [if_neg hx, if_neg (by simp [hxa, hx])]

lemma mem_idxList {nTime nFreq nAnt nDir : ℕ} {t f a d : ℕ} :
    (t, f, a, d) ∈ idxList nTime nFreq nAnt nDir ↔
      t < nTime ∧ f < nFreq ∧ a < nAnt ∧ d < nDir := by
  simp only [idxList, List.mem_flatMap, List.mem_map, List.mem_range,
    Prod.mk.injEq]
  constructor
  · rintro ⟨t', ht', f', hf', a', ha', d', hd', rfl, rfl, rfl, rfl⟩
    exact ⟨ht', hf', ha', hd'⟩
  · rintro ⟨ht, hf, ha, hd⟩
    exact ⟨t, ht, f, hf, a, ha, d, hd, rfl, rfl, rfl, rfl⟩

lemma nodup_idxList (nTime nFreq nAnt nDir : ℕ) :
    (idxList nTime nFreq nAnt nDir).Nodup := by
  refine List.nodup_flatMap.mpr ⟨fun t _ => ?_, ?_⟩
  · refine List.nodup_flatMap.mpr ⟨fun f _ => ?_, ?_⟩
    · refine List.nodup_flatMap.mpr ⟨fun a _ => ?_, ?_⟩
      · refine ((List.nodup_range nDir).map ?_)
        intro d d' h
        simpa using h
      · refine (List.nodup_range nAnt).imp ?_
        intro a a' hne
        simp only [Function.onFun, List.disjoint_left, List.mem_map,
          List.mem_range]
        rintro x ⟨d, _, rfl⟩ ⟨d', _, h⟩
        exact hne (congrArg (fun p : Idx4 => p.2.2.1) h).symm
    · refine (List.nodup_range nFreq).imp ?_
      intro f f' hne
      simp only [Function.onFun, List.disjoint_left, List.mem_flatMap,
        List.mem_map, List.mem_range]
      rintro x ⟨a, _, d, _, rfl⟩ ⟨a', _, d', _, h⟩
      exact hne (congrArg (fun p : Idx4 => p.2.1) h).symm
  · refine (List.nodup_range nTime).imp ?_
    intro t t' hne
    simp only [Function.onFun, List.disjoint_left, List.mem_flatMap,
      List.mem_map, List.mem_range]
    rintro x ⟨f, _, a, _, d, _, rfl⟩ ⟨f', _, a', _, d', _, h⟩
    exact hne (congrArg (fun p : Idx4 => p.1) h).symm

/-- Pointwise reading of the `finalize_update` gain loop: inside the loop
bounds the cell holds the body's value, outside it is untouched. -/
lemma finalizeUpdate4_gain_apply {K : Type} [One K] [Zero K] (cexp : ℚ → K)
    (gain : Idx4 → GainCell K) (gainFlags : Idx4 → ℤ)
    (params update : Idx4 → ParamCell) (fMapP : ℕ → ℕ) (dMap : ℕ → ℕ)
    (scaledCf : ℕ → ℚ) (nTime nFreq nAnt nDir : ℕ) (t f a d : ℕ) :
    (finalizeUpdate4 cexp gain gainFlags params update fMapP dMap scaledCf
        nTime nFreq nAnt nDir).1 (t, f, a, d) =
      if t < nTime ∧ f < nFreq ∧ a < nAnt ∧ d < nDir then
        finalizeCell cexp gainFlags
          (fun idx i => params idx i + update idx i / 2) fMapP dMap scaledCf
          (t, f, a, d) (gain (t, f, a, d))
      else gain (t, f, a, d) := by
  rw [show (finalizeUpdate4 cexp gain gainFlags params update fMapP dMap
      scaledCf nTime nFreq nAnt nDir).1 =
      (idxList nTime nFreq nAnt nDir).foldl
        (writeCell (finalizeCell cexp gainFlags
          (fun idx i => params idx i + update idx i / 2) fMapP dMap scaledCf))
        gain from rfl]
  rw [foldl_writeCell_eq _ _ (nodup_idxList nTime nFreq nAnt nDir)]
  by_cases h : t < nTime ∧ f < nFreq ∧ a < nAnt ∧ d < nDir
  · rw [if_pos (mem_idxList.mpr h), if_pos h]
  · rw [if_neg (fun hm => h (mem_idxList.mp hm)), if_neg h]

/-- The parameter side of `finalize_update`:
`params ← params + update/2` at every parameter index. -/
lemma finalizeUpdate4_params {K : Type} [One K] [Zero K] (cexp : ℚ → K)
    (gain : Idx4 → GainCell K) (gainFlags : Idx4 → ℤ)
    (params update : Idx4 → ParamCell) (fMapP : ℕ → ℕ) (dMap : ℕ → ℕ)
    (scaledCf : ℕ → ℚ) (nTime nFreq nAnt nDir : ℕ) :
    (finalizeUpdate4 cexp gain gainFlags params update fMapP dMap scaledCf
        nTime nFreq nAnt nDir).2 =
      fun idx i => params idx i + update idx i / 2 :=
  rfl

/-! ## Helper lemmas: the Gauss–Newton iteration loop -/

lemma gnLoop_count_le {σ : Type} (step : σ → σ) (convOf : σ → ℚ)
    (sf : ℚ) : ∀ (n : ℕ) (s : σ), (gnLoop step convOf sf n s).1 ≤ n := by
  intro n
  induction n with
  | zero => intro s; simp [gnLoop]
  | succ n ih =>
      intro s
      show (gnLoop step convOf sf (n + 1) s).1 ≤ n + 1
      rw [gnLoop]
      by_cases h : sf < convOf (step s)
      · simp [h]
      · simpa [h] using ih (step s)

lemma gnLoop_count_pos {σ : Type} (step : σ → σ) (convOf : σ → ℚ)
    (sf : ℚ) (n : ℕ) (s : σ) (hn : 0 < n) :
    0 < (gnLoop step convOf sf n s).1 := by
  obtain ⟨m, rfl⟩ : ∃ m, n = m + 1 := ⟨n - 1, by omega⟩
  rw [gnLoop]
  by_cases h : sf < convOf (step s) <;> simp [h]

lemma gnLoop_state_eq {σ : Type} (step : σ → σ) (convOf : σ → ℚ)
    (sf : ℚ) : ∀ (n : ℕ) (s : σ),
    (gnLoop step convOf sf n s).2 = step^[(gnLoop step convOf sf n s).1] s := by
  intro n
  induction n with
  | zero => intro s; simp [gnLoop]
  | succ n ih =>
      intro s
      rw [gnLoop]
      by_cases h : sf < convOf (step s)
      · simp [h]
      · simp only [h, if_false]
        rw [ih (step s), Function.iterate_succ_apply]

lemma gnLoop_no_early_exit {σ : Type} (step : σ → σ) (convOf : σ → ℚ)
    (sf : ℚ) : ∀ (n : ℕ) (s : σ) (i : ℕ),
    i + 1 < (gnLoop step convOf sf n s).1 → convOf (step^[i + 1] s) ≤ sf := by
  intro n
  induction n with
  | zero => intro s i hi; simp [gnLoop] at hi
  | succ n ih =>
      intro s i hi
      rw [gnLoop] at hi
      by_cases h : sf < convOf (step s)
      · simp [h] at hi
      · simp only [h, if_false] at hi
        match i with
        | 0 => simpa using not_lt.mp h
        | j + 1 =>
            have := ih (step s) j (by omega)
            simpa [Function.iterate_succ_apply] using this

lemma gnLoop_early_exit {σ : Type} (step : σ → σ) (convOf : σ → ℚ)
    (sf : ℚ) : ∀ (n : ℕ) (s : σ),
    (gnLoop step convOf sf n s).1 < n →
      sf < convOf (step^[(gnLoop step convOf sf n s).1] s) := by
  intro n
  induction n with
  | zero => intro s h; simp [gnLoop] at h
  | succ n ih =>
      intro s h
      rw [gnLoop] at h ⊢
      by_cases hc : sf < convOf (step s)
      · simp only [hc, if_true]
        simpa using hc
      · simp only [hc, if_false] at h ⊢
        have := ih (step s) (by omega)
        simpa [Function.iterate_succ_apply] using this

/-! ## Helper lemmas: delay scaling -/

lemma unscaleDelays_scaleDelays (m : ℚ) (hm : m ≠ 0)
    (p : ℕ × ℕ × ℕ × ℕ → Fin 4 → ℚ) :
    unscaleDelays m (scaleDelays m p) = p := by
  funext idx i
  unfold unscaleDelays scaleDelays
  by_cases h : i.val % 2 = 1
  · simp [h, mul_div_assoc, div_self hm]
  · simp [h]

lemma gnLoop_params_invariant {σ : Type}
    (step : DelayState σ → DelayState σ) (convOf : DelayState σ → ℚ)
    (sf : ℚ) (hstep : ∀ st, (step st).1 = st.1) :
    ∀ (n : ℕ) (st : DelayState σ),
      (gnLoop step convOf sf n st).2.1 = st.1 := by
  intro n
  induction n with
  | zero => intro st; simp [gnLoop]
  | succ n ih =>
      intro st
      rw [gnLoop]
      by_cases h : sf < convOf (step st)
      · simpa [h] using hstep st
      · simp only [h, if_false]
        rw [ih (step st), hstep st]

/-! ## Helper lemmas: the duration-case frequency mapping loop -/

lemma fMapGo_length (fInt : ℚ) :
    ∀ (ws : List ℚ) (net : ℚ) (bin : ℕ),
      (fMapGo fInt net bin ws).length = ws.length := by
  intro ws
  induction ws with
  | nil => intro net bin; simp [fMapGo]
  | cons w rest ih =>
      intro net bin
      rw [fMapGo]
      by_cases h : fInt ≤ net + w <;> simp [h, ih]

lemma fMapGo_head (fInt : ℚ) (w : ℚ) (rest : List ℚ) (net : ℚ) (bin : ℕ) :
    (fMapGo fInt net bin (w :: rest)).getD 0 0 = bin := by
  rw [fMapGo]
  by_cases h : fInt ≤ net + w <;> simp [h]

lemma fMapGo_lower_bound (fInt : ℚ) :
    ∀ (ws : List ℚ) (net : ℚ) (bin : ℕ) (i : ℕ), i < ws.length →
      bin ≤ (fMapGo fInt net bin ws).getD i 0 := by
  intro ws
  induction ws with
  | nil => intro net bin i hi; simp at hi
  | cons w rest ih =>
      intro net bin i hi
      rw [fMapGo]
      by_cases h : fInt ≤ net + w
      · simp only [h, if_true]
        match i with
        | 0 => simp
        | k + 1 =>
            have h2 := ih 0 (bin + 1) k (by simpa using hi)
            simp only [List.getD_cons_succ]
            omega
      · simp only [h, if_false]
        match i with
        | 0 => simp
        | k + 1 =>
            have := ih (net + w) bin k (by simpa using hi)
            simpa using this

lemma fMapGo_step (fInt : ℚ) :
    ∀ (ws : List ℚ) (net : ℚ) (bin : ℕ) (i : ℕ), i + 1 < ws.length →
      (fMapGo fInt net bin ws).getD (i + 1) 0 =
          (fMapGo fInt net bin ws).getD i 0
      ∨ (fMapGo fInt net bin ws).getD (i + 1) 0 =
          (fMapGo fInt net bin ws).getD i 0 + 1 := by
  intro ws
  induction ws with
  | nil => intro net bin i hi; simp at hi
  | cons w rest ih =>
      intro net bin i hi
      obtain ⟨r, rest', rfl⟩ : ∃ r rest', rest = r :: rest' := by
        match rest with
        | [] => simp at hi
        | r :: rest' => exact ⟨r, rest', rfl⟩
      rw [fMapGo]
      by_cases h : fInt ≤ net + w
      · simp only [h, if_true]
        match i with
        | 0 => right; simpa using fMapGo_head fInt r rest' 0 (bin + 1)
        | k + 1 =>
            have := ih 0 (bin + 1) k (by simpa using hi)
            simpa using this
      · simp only [h, if_false]
        match i with
        | 0 => left; simpa using fMapGo_head fInt r rest' (net + w) bin
        | k + 1 =>
            have := ih (net + w) bin k (by simpa using hi)
            simpa using this

lemma fMapGo_new_bin_iff (fInt : ℚ) :
    ∀ (ws : List ℚ) (net : ℚ) (bin : ℕ) (i : ℕ), i + 1 < ws.length →
      ((fMapGo fInt net bin ws).getD (i + 1) 0 =
          (fMapGo fInt net bin ws).getD i 0 + 1
       ↔ fInt ≤
          (if (fMapGo fInt net bin ws).getD i 0 = bin then net else 0) +
            ∑ j ∈ Finset.range (i + 1),
              (if (fMapGo fInt net bin ws).getD j 0 =
                  (fMapGo fInt net bin ws).getD i 0
               then ws.getD j 0 else 0)) := by
  intro ws
  induction ws with
  | nil => intro net bin i hi; simp at hi
  | cons w rest ih =>
      intro net bin i hi
      match i with
      | 0 =>
          obtain ⟨r, rest', rfl⟩ : ∃ r rest', rest = r :: rest' := by
            match rest with
            | [] => simp at hi
            | r :: rest' => exact ⟨r, rest', rfl⟩
          rw [fMapGo]
          by_cases h : fInt ≤ net + w
          · simp only [h, if_true, List.getD_cons_succ, List.getD_cons_zero,
              Finset.sum_range_one]
            rw [fMapGo_head]
            simp [h]
          · simp only [h, if_false, List.getD_cons_succ, List.getD_cons_zero,
              Finset.sum_range_one]
            rw [fMapGo_head]
            simp [h]
      | k + 1 =>
          have hk : k + 1 < rest.length := by simpa using hi
          rw [fMapGo]
          by_cases h : fInt ≤ net + w
          · simp only [h, if_true, List.getD_cons_succ]
            have hlb := fMapGo_lower_bound fInt rest 0 (bin + 1) k (by omega)
            have hne : (fMapGo fInt 0 (bin + 1) rest).getD k 0 ≠ bin := by
              omega
            rw [ih 0 (bin + 1) k hk, Finset.sum_range_succ' _ (k + 1)]
            have hne' : (fMapGo fInt 0 (bin + 1) rest)[k]?.getD 0 ≠ bin := by
              simpa [List.getD_eq_getElem?_getD] using hne
            simp [hne', Ne.symm hne']
          · simp only [h, if_false, List.getD_cons_succ]
            rw [ih (net + w) bin k hk, Finset.sum_range_succ' _ (k + 1)]
            by_cases hbin : (fMapGo fInt (net + w) bin rest).getD k 0 = bin
            · simp only [hbin, if_true, List.getD_cons_succ,
                List.getD_cons_zero, if_pos rfl]
              constructor <;> intro hx <;> linarith
            · have hbin' :
                  (fMapGo fInt (net + w) bin rest)[k]?.getD 0 ≠ bin := by
                simpa [List.getD_eq_getElem?_getD] using hbin
              simp [hbin', Ne.symm hbin']

/-! ## Claim theorems -/

/-- C5: for a duration-type (float) frequency interval, the mapping built by
`make_f_maps` has exactly one bin index per channel; the bin indices start at
zero; consecutive channels keep the same bin or step to the next one (so the
map is contiguous and monotonically non-decreasing); and a channel opens a
new bin exactly when the accumulated channel widths of its bin meet or
exceed the requested interval — in particular the final partial bin is
retained even when its accumulated width falls short. -/
theorem makeFMapsFloat_binning (ws : List ℚ) (fInt : ℚ) :
    (makeFMapsFloat ws fInt).length = ws.length
    ∧ (0 < ws.length → (makeFMapsFloat ws fInt).getD 0 0 = 0)
    ∧ (∀ i, i + 1 < ws.length →
        (makeFMapsFloat ws fInt).getD (i + 1) 0 =
            (makeFMapsFloat ws fInt).getD i 0
        ∨ (makeFMapsFloat ws fInt).getD (i + 1) 0 =
            (makeFMapsFloat ws fInt).getD i 0 + 1)
    ∧ (∀ i, i + 1 < ws.length →
        ((makeFMapsFloat ws fInt).getD (i + 1) 0 =
            (makeFMapsFloat ws fInt).getD i 0 + 1
         ↔ fInt ≤ currentBinWidth (makeFMapsFloat ws fInt) ws i)) := by
  refine ⟨fMapGo_length fInt ws 0 0, ?_, ?_, ?_⟩
  · intro h
    obtain ⟨w, rest, rfl⟩ : ∃ w rest, ws = w :: rest := by
      match ws, h with
      | w :: rest, _ => exact ⟨w, rest, rfl⟩
    exact fMapGo_head fInt w rest 0 0
  · intro i hi
    exact fMapGo_step fInt ws 0 0 i hi
  · intro i hi
    have h := fMapGo_new_bin_iff fInt ws 0 0 i hi
    simpa [currentBinWidth, makeFMapsFloat] using h

/-- C4: for every chunk and term, the delay solver's inner Gauss–Newton loop
performs at most `max_iter` iterations; the returned count is the number of
iterations actually performed (the final state is that many applications of
the iteration body); no iteration before the last one had a converged
percentage above `stop_frac`; and when the loop stops short of `max_iter`
the converged percentage produced by its last iteration exceeds
`stop_frac`. -/
theorem delay_solver_inner_loop (σ : Type) (step : σ → σ) (convOf : σ → ℚ)
    (stopFrac : ℚ) (maxIter : ℕ) (s : σ) :
    (gnLoop step convOf stopFrac maxIter s).1 ≤ maxIter
    ∧ (0 < maxIter → 0 < (gnLoop step convOf stopFrac maxIter s).1)
    ∧ (gnLoop step convOf stopFrac maxIter s).2 =
        step^[(gnLoop step convOf stopFrac maxIter s).1] s
    ∧ (∀ i, i + 1 < (gnLoop step convOf stopFrac maxIter s).1 →
        convOf (step^[i + 1] s) ≤ stopFrac)
    ∧ ((gnLoop step convOf stopFrac maxIter s).1 < maxIter →
        stopFrac < convOf (step^[(gnLoop step convOf stopFrac maxIter s).1] s)) :=
  ⟨gnLoop_count_le step convOf stopFrac maxIter s,
   gnLoop_count_pos step convOf stopFrac maxIter s,
   gnLoop_state_eq step convOf stopFrac maxIter s,
   gnLoop_no_early_exit step convOf stopFrac maxIter s,
   gnLoop_early_exit step convOf stopFrac maxIter s⟩

/-- C7: the delay solver scales the delay parameters by `ν_min` (and the
channel frequencies by `1/ν_min`) on entry and divides the delay parameters
by `ν_min` on exit; the two scalings compose to the identity, the frequency
scaling composed with multiplication by `ν_min` restores the frequencies,
and the parameters handed back are the unscaled loop result on every
invocation — in particular, when the iterations leave the parameters alone,
the solver returns them exactly as given, however many iterations ran. -/
theorem delay_solver_scaling (σ : Type) (step : DelayState σ → DelayState σ)
    (convOf : DelayState σ → ℚ) (stopFrac : ℚ) (maxIter : ℕ) (cf : ℚ)
    (cfs : List ℚ) (params : ℕ × ℕ × ℕ × ℕ → Fin 4 → ℚ) (s : σ)
    (hm : listMin cf cfs ≠ 0) :
    (∀ q, unscaleDelays (listMin cf cfs) (scaleDelays (listMin cf cfs) q) = q)
    ∧ (scaledChanFreqs cf cfs).map (fun x => x * listMin cf cfs) = cf :: cfs
    ∧ (delaySolver step convOf stopFrac maxIter cf cfs params s).1 =
        unscaleDelays (listMin cf cfs)
          (gnLoop step convOf stopFrac maxIter
            (scaleDelays (listMin cf cfs) params, s)).2.1
    ∧ ((∀ st, (step st).1 = st.1) →
        (delaySolver step convOf stopFrac maxIter cf cfs params s).1 =
          params) := by
  refine ⟨fun q => unscaleDelays_scaleDelays _ hm q, ?_, rfl, ?_⟩
  · unfold scaledChanFreqs
    rw [List.map_map]
    have : ((fun x => x * listMin cf cfs) ∘ fun x => x / listMin cf cfs) =
        id := by
      funext x
      simp [Function.comp, div_mul_cancel₀, hm]
    rw [this, List.map_id]
  · intro hstep
    show unscaleDelays (listMin cf cfs)
        (gnLoop step convOf stopFrac maxIter
          (scaleDelays (listMin cf cfs) params, s)).2.1 = params
    rw [gnLoop_params_invariant step convOf stopFrac hstep maxIter]
    exact unscaleDelays_scaleDelays _ hm params

/-- Witness for C7 at a concrete invocation: two channel frequencies with
minimum `2`, parameter-preserving iteration bodies, three iterations. -/
theorem delay_solver_scaling_witness :
    (delaySolver (σ := Unit) id (fun _ => 0) 0 3 2 [3]
        (fun _ _ => 1) ()).1 = fun _ _ => 1 :=
  (delay_solver_scaling Unit id (fun _ => 0) 0 3 2 [3] (fun _ _ => 1) ()
    (by norm_num [listMin])).2.2.2 (fun st => rfl)

/-- C6: merging the MAD outlier mask into the data flag column is monotone:
a visibility flagged before the merge stays flagged, the merge never clears
a flag, and the only positions it changes are outlier positions, which it
sets to `1`. -/
theorem mad_flagger_monotone (madFlags : ℕ → ℕ → Bool) (flagCol : ℕ → ℕ → ℤ)
    (r c : ℕ) :
    (flagCol r c ≠ 0 → madMergeFlags madFlags flagCol r c ≠ 0)
    ∧ (madMergeFlags madFlags flagCol r c = 0 → flagCol r c = 0)
    ∧ (madMergeFlags madFlags flagCol r c ≠ flagCol r c →
        madFlags r c = true ∧ madMergeFlags madFlags flagCol r c = 1) := by
  unfold madMergeFlags
  by_cases h : madFlags r c <;> simp [h]

/-- `_initialise_flags` sets the aggregate flag exactly when an input flag,
the row flag, a zero datum on the first or last correlation, or a zero
weight there is present (shared helper). -/
lemma initialiseFlags_eq_true_iff (n : ℕ)
    (dataCol : ℕ → ℕ → Fin (n + 1) → ℚ × ℚ)
    (weightCol : ℕ → ℕ → Fin (n + 1) → ℚ)
    (flagCol : ℕ → ℕ → Fin (n + 1) → Bool) (flagRowCol : ℕ → Bool)
    (r c : ℕ) :
    initialiseFlags dataCol weightCol flagCol flagRowCol r c = true
    ↔ ((∃ k, flagCol r c k = true) ∨ flagRowCol r = true
       ∨ dataCol r c 0 = (0, 0) ∨ dataCol r c (Fin.last n) = (0, 0)
       ∨ weightCol r c 0 = 0 ∨ weightCol r c (Fin.last n) = 0) := by
  unfold initialiseFlags perCorrFlags combinedFlags missingPoints
    noweightPoints
  simp only [List.any_eq_true, List.mem_finRange, true_and,
    Bool.or_eq_true, decide_eq_true_eq]
  constructor
  · rintro ⟨k, ((hf | hr) | hd) | hw⟩
    · exact Or.inl ⟨k, hf⟩
    · exact Or.inr (Or.inl hr)
    · rcases hd with hd | hd
      · exact Or.inr (Or.inr (Or.inl hd))
      · exact Or.inr (Or.inr (Or.inr (Or.inl hd)))
    · rcases hw with hw | hw
      · exact Or.inr (Or.inr (Or.inr (Or.inr (Or.inl hw))))
      · exact Or.inr (Or.inr (Or.inr (Or.inr (Or.inr hw))))
  · rintro (⟨k, hf⟩ | hr | hd | hd | hw | hw)
    · exact ⟨k, Or.inl (Or.inl (Or.inl hf))⟩
    · exact ⟨0, Or.inl (Or.inl (Or.inr hr))⟩
    · exact ⟨0, Or.inl (Or.inr (Or.inl hd))⟩
    · exact ⟨0, Or.inl (Or.inr (Or.inr hd))⟩
    · exact ⟨0, Or.inr (Or.inl hw)⟩
    · exact ⟨0, Or.inr (Or.inr hw)⟩

/-- C8 (amended): preprocessing zeroes every non-finite datum; a visibility
whose datum on the first or last correlation is non-finite is flagged (its
zeroed datum is zero there, which flag initialisation catches); and the
weights handed to the solver are zero at every visibility whose aggregate
flag is set. -/
theorem preprocess_nonfinite_handling (n : ℕ)
    (dataCol : ℕ → ℕ → Fin (n + 1) → Option (ℚ × ℚ))
    (weightCol : ℕ → ℕ → Fin (n + 1) → ℚ)
    (flagCol : ℕ → ℕ → Fin (n + 1) → Bool) (flagRowCol : ℕ → Bool)
    (r c : ℕ) :
    (∀ k, dataCol r c k = none → preprocessData dataCol r c k = (0, 0))
    ∧ (dataCol r c 0 = none ∨ dataCol r c (Fin.last n) = none →
        preprocessFlags dataCol weightCol flagCol flagRowCol r c = true)
    ∧ (∀ k, preprocessFlags dataCol weightCol flagCol flagRowCol r c = true →
        preprocessWeights dataCol weightCol flagCol flagRowCol r c k = 0) := by
  refine ⟨?_, ?_, ?_⟩
  · intro k hk
    simp [preprocessData, zeroNonFinite, hk]
  · intro hd
    unfold preprocessFlags
    rw [initialiseFlags_eq_true_iff]
    rcases hd with hd | hd
    · exact Or.inr (Or.inr (Or.inl (by simp [preprocessData, zeroNonFinite, hd])))
    · exact Or.inr (Or.inr (Or.inr (Or.inl
        (by simp [preprocessData, zeroNonFinite, hd]))))
  · intro k hk
    simp [preprocessWeights, hk]

/-- C9: flag initialisation marks a visibility exactly when one of its input
flags is set, its row flag is set, its (zeroed) data is exactly zero on the
first or last correlation, or its weight is zero on the first or last
correlation — so a visibility with legitimately zero on-diagonal data is
excluded from the solve even when unflagged and fully weighted on input. -/
theorem initialise_flags_zero_data (n : ℕ)
    (dataCol : ℕ → ℕ → Fin (n + 1) → ℚ × ℚ)
    (weightCol : ℕ → ℕ → Fin (n + 1) → ℚ)
    (flagCol : ℕ → ℕ → Fin (n + 1) → Bool) (flagRowCol : ℕ → Bool)
    (r c : ℕ) :
    initialiseFlags dataCol weightCol flagCol flagRowCol r c = true
    ↔ ((∃ k, flagCol r c k = true) ∨ flagRowCol r = true
       ∨ dataCol r c 0 = (0, 0) ∨ dataCol r c (Fin.last n) = (0, 0)
       ∨ weightCol r c 0 = 0 ∨ weightCol r c (Fin.last n) = 0) :=
  initialiseFlags_eq_true_iff n dataCol weightCol flagCol flagRowCol r c

lemma finalizeUpdate4_offdiag {K : Type} [One K] [Zero K] (cexp : ℚ → K)
    (gain : Idx4 → GainCell K) (gainFlags : Idx4 → ℤ)
    (params update : Idx4 → ParamCell) (fMapP dMap : ℕ → ℕ)
    (scaledCf : ℕ → ℚ) (nTime nFreq nAnt nDir : ℕ) (idx : Idx4)
    (hfl : gainFlags idx ≠ 1) (i : Fin 4) (hi : i = 1 ∨ i = 2) :
    (finalizeUpdate4 cexp gain gainFlags params update fMapP dMap scaledCf
        nTime nFreq nAnt nDir).1 idx i = gain idx i := by
  obtain ⟨t, f, a, d⟩ := idx
  rw [finalizeUpdate4_gain_apply]
  by_cases hb : t < nTime ∧ f < nFreq ∧ a < nAnt ∧ d < nDir
  · rw [if_pos hb]
    rcases hi with rfl | rfl <;>
      simp [finalizeCell, paramToGain4, hfl,
        show (1 : Fin 4) ≠ 0 by decide, show (1 : Fin 4) ≠ 3 by decide,
        show (2 : Fin 4) ≠ 0 by decide, show (2 : Fin 4) ≠ 3 by decide]
  · rw [if_neg hb]

/-- C3: in each delay-solver iteration the Gauss–Newton update is halved and
the halved update added to the parameters (`params ← params + update/2`, at
every parameter index), and the gains are then rewritten at every in-bounds
gain-grid `(t, f, a, d)` point from the updated parameters read through the
parameter mappings `f_map_arr_p` / `d_map_arr` (identity at hard-flagged
cells, the parameter-to-gain map elsewhere). -/
theorem finalize_update_half_step (K : Type) [One K] [Zero K] (cexp : ℚ → K)
    (gain : Idx4 → GainCell K) (gainFlags : Idx4 → ℤ)
    (params update : Idx4 → ParamCell) (fMapP dMap : ℕ → ℕ)
    (scaledCf : ℕ → ℚ) (nTime nFreq nAnt nDir : ℕ) :
    (finalizeUpdate4 cexp gain gainFlags params update fMapP dMap scaledCf
        nTime nFreq nAnt nDir).2 =
      (fun idx i => params idx i + update idx i / 2)
    ∧ (∀ t f a d, t < nTime → f < nFreq → a < nAnt → d < nDir →
        (finalizeUpdate4 cexp gain gainFlags params update fMapP dMap scaledCf
            nTime nFreq nAnt nDir).1 (t, f, a, d) =
          (if gainFlags (t, f, a, d) = 1 then setIdentity4
           else
             paramToGain4 cexp
               (fun i => params (t, fMapP f, a, dMap d) i +
                 update (t, fMapP f, a, dMap d) i / 2)
               (scaledCf f) (gain (t, f, a, d)))) := by
  refine ⟨rfl, ?_⟩
  intro t f a d ht hf ha hd
  rw [finalizeUpdate4_gain_apply, if_pos ⟨ht, hf, ha, hd⟩]
  rfl

/-- Witness for C3 at a concrete input: a 1×1×1×1 grid, parameters `1`,
update `4`; the returned parameters hold `1 + 4/2 = 3` everywhere. -/
theorem finalize_update_half_step_witness :
    (finalizeUpdate4 (K := ℚ) id (fun _ _ => 0) (fun _ => 0) (fun _ _ => 1)
        (fun _ _ => 4) id id (fun _ => 1) 1 1 1 1).2 =
      (fun idx i => (fun _ _ => (1 : ℚ)) idx i +
        (fun _ _ => (4 : ℚ)) idx i / 2) :=
  (finalize_update_half_step ℚ id (fun _ _ => 0) (fun _ => 0) (fun _ _ => 1)
    (fun _ _ => 4) id id (fun _ => 1) 1 1 1 1).1

/-- C1 (amended): during update finalisation, a cell whose gain flag equals
`1` — the hard-flag value — has its gain set to the identity matrix; the
parameter-to-gain map is not applied there. -/
theorem finalize_update_hard_flag_identity (K : Type) [One K] [Zero K]
    (cexp : ℚ → K) (gain : Idx4 → GainCell K) (gainFlags : Idx4 → ℤ)
    (params update : Idx4 → ParamCell) (fMapP dMap : ℕ → ℕ)
    (scaledCf : ℕ → ℚ) (nTime nFreq nAnt nDir : ℕ) (t f a d : ℕ)
    (ht : t < nTime) (hf : f < nFreq) (ha : a < nAnt) (hd : d < nDir)
    (hfl : gainFlags (t, f, a, d) = 1) :
    (finalizeUpdate4 cexp gain gainFlags params update fMapP dMap scaledCf
        nTime nFreq nAnt nDir).1 (t, f, a, d) = setIdentity4 := by
  rw [finalizeUpdate4_gain_apply, if_pos ⟨ht, hf, ha, hd⟩]
  simp [finalizeCell, hfl]

/-- Witness for C1 (amended) at a concrete hard-flagged cell. -/
theorem finalize_update_hard_flag_identity_witness :
    (finalizeUpdate4 (K := ℚ) id (fun _ _ => 0) (fun _ => 1) (fun _ _ => 0)
        (fun _ _ => 0) id id (fun _ => 1) 1 1 1 1).1 (0, 0, 0, 0) =
      setIdentity4 :=
  finalize_update_hard_flag_identity ℚ id (fun _ _ => 0) (fun _ => 1)
    (fun _ _ => 0) (fun _ _ => 0) id id (fun _ => 1) 1 1 1 1 0 0 0 0
    (by decide) (by decide) (by decide) (by decide) rfl

/-- Counterexample to C1 as stated: a cell whose gain flag is `-1` — the
soft-flag value, nonzero — is NOT set to the identity by update
finalisation: the parameter-to-gain map is applied and the off-diagonal XY
entry keeps its previous value `5` whereas the identity has `0` there. -/
theorem finalize_update_soft_flag_cex :
    (fun _ : Idx4 => (-1 : ℤ)) (0, 0, 0, 0) ≠ 0
    ∧ (finalizeUpdate4 (K := ℚ) id (fun _ _ => 5) (fun _ => -1)
        (fun _ _ => 0) (fun _ _ => 0) id id (fun _ => 1) 1 1 1 1).1
        (0, 0, 0, 0) ≠ setIdentity4 := by
  constructor
  · decide
  · intro h
    have h1 := congrFun h 1
    rw [finalizeUpdate4_offdiag (K := ℚ) id (fun _ _ => 5) (fun _ => -1)
      (fun _ _ => 0) (fun _ _ => 0) id id (fun _ => 1) 1 1 1 1 (0, 0, 0, 0)
      (by decide) 1 (Or.inl rfl)] at h1
    simp [setIdentity4] at h1

/-- C2 (amended): at every in-bounds cell that is not hard-flagged, the
on-diagonal gain entries are derived deterministically from the updated
parameters through the solver's parameter-to-gain map
`gain = exp(i·(ν·τ + φ))` — with NO `2π` factor — per parameterisable
correlation: XX from `(phase_offset_XX, delay_XX)`, YY from
`(phase_offset_YY, delay_YY)`, with the parameters read through the
frequency/direction parameter mappings. -/
theorem delay_param_to_gain_map (gain : Idx4 → GainCell ℂ)
    (gainFlags : Idx4 → ℤ) (params update : Idx4 → ParamCell)
    (fMapP dMap : ℕ → ℕ) (scaledCf : ℕ → ℚ) (nTime nFreq nAnt nDir : ℕ)
    (t f a d : ℕ) (ht : t < nTime) (hf : f < nFreq) (ha : a < nAnt)
    (hd : d < nDir) (hfl : gainFlags (t, f, a, d) ≠ 1) :
    ((finalizeUpdate4 (fun x : ℚ => Complex.exp (Complex.I * x)) gain
        gainFlags params update fMapP dMap scaledCf nTime nFreq nAnt
        nDir).1 (t, f, a, d)) 0
      = Complex.exp (Complex.I *
          ((scaledCf f *
              (params (t, fMapP f, a, dMap d) 1 +
                update (t, fMapP f, a, dMap d) 1 / 2) +
            (params (t, fMapP f, a, dMap d) 0 +
              update (t, fMapP f, a, dMap d) 0 / 2) : ℚ) : ℂ))
    ∧ ((finalizeUpdate4 (fun x : ℚ => Complex.exp (Complex.I * x)) gain
        gainFlags params update fMapP dMap scaledCf nTime nFreq nAnt
        nDir).1 (t, f, a, d)) 3
      = Complex.exp (Complex.I *
          ((scaledCf f *
              (params (t, fMapP f, a, dMap d) 3 +
                update (t, fMapP f, a, dMap d) 3 / 2) +
            (params (t, fMapP f, a, dMap d) 2 +
              update (t, fMapP f, a, dMap d) 2 / 2) : ℚ) : ℂ)) := by
  constructor <;>
  · rw [finalizeUpdate4_gain_apply, if_pos ⟨ht, hf, ha, hd⟩]
    simp [finalizeCell, hfl, paramToGain4]

/-- Witness for C2 (amended) at a concrete unflagged cell. -/
theorem delay_param_to_gain_map_witness :
    ((finalizeUpdate4 (fun x : ℚ => Complex.exp (Complex.I * x))
        (fun _ _ => 0) (fun _ => 0) (fun _ _ => 1) (fun _ _ => 0) id id
        (fun _ => 2) 1 1 1 1).1 (0, 0, 0, 0)) 0
      = Complex.exp (Complex.I * ((2 * (1 + 0 / 2) + (1 + 0 / 2) : ℚ) : ℂ)) :=
  (delay_param_to_gain_map (fun _ _ => 0) (fun _ => 0) (fun _ _ => 1)
    (fun _ _ => 0) id id (fun _ => 2) 1 1 1 1 0 0 0 0 (by decide) (by decide)
    (by decide) (by decide) (by decide)).1

/-- Counterexample to C2 as stated: with phase offset `0`, delay `1` and
(scaled) channel frequency `1`, the solver's map gives `exp(i·1)` while the
claimed map `exp(i·2π·ν·τ)` gives `exp(2πi) = 1`; these differ because
`sin 1 ≠ 0`. -/
theorem delay_param_to_gain_two_pi_cex :
    paramToGain4 (fun x : ℚ => Complex.exp (Complex.I * x))
        (fun i => if i = 1 then 1 else 0) 1 (fun _ => 0) 0
      ≠ Complex.exp (Complex.I * (2 * (Real.pi : ℂ) * 1 * 1 + 0)) := by
  have hL : paramToGain4 (fun x : ℚ => Complex.exp (Complex.I * x))
      (fun i => if i = 1 then 1 else 0) 1 (fun _ => 0) 0 =
      Complex.exp (Complex.I * 1) := by
    simp [paramToGain4]
  have hR : Complex.exp (Complex.I * (2 * (Real.pi : ℂ) * 1 * 1 + 0)) = 1 := by
    rw [show Complex.I * (2 * (Real.pi : ℂ) * 1 * 1 + 0) =
        2 * (Real.pi : ℂ) * Complex.I by ring]
    exact Complex.exp_two_pi_mul_I
  rw [hL, hR]
  intro h
  have h1 : Complex.exp (((1 : ℝ) : ℂ) * Complex.I) = 1 := by
    rw [← h]
    norm_num [mul_comm]
  have him := congrArg Complex.im h1
  rw [Complex.exp_ofReal_mul_I_im] at him
  have hs : (0 : ℝ) < Real.sin 1 :=
    Real.sin_pos_of_pos_of_lt_pi (by norm_num)
      (by linarith [Real.pi_gt_three])
  simp at him
  linarith

/-- C10: across any sequence of solver iterations, a 4-correlation cell that
is never hard-flagged has its off-diagonal (XY, YX) gain entries left
unchanged by every iteration's update finalisation — the parameter-to-gain
map writes only the on-diagonal entries — so they retain their initialised
values throughout the solve. -/
theorem delay_offdiagonal_retained (K : Type) [One K] [Zero K]
    (cexp : ℚ → K) (fMapP dMap : ℕ → ℕ) (scaledCf : ℕ → ℚ)
    (nTime nFreq nAnt nDir : ℕ)
    (iters : List ((Idx4 → ℤ) × (Idx4 → ParamCell)))
    (gain : Idx4 → GainCell K) (params : Idx4 → ParamCell) (idx : Idx4)
    (hfl : ∀ fl ∈ iters, fl.1 idx ≠ 1) :
    (iterFinalize4 cexp fMapP dMap scaledCf nTime nFreq nAnt nDir iters
        (gain, params)).1 idx 1 = gain idx 1
    ∧ (iterFinalize4 cexp fMapP dMap scaledCf nTime nFreq nAnt nDir iters
        (gain, params)).1 idx 2 = gain idx 2 := by
  induction iters generalizing gain params with
  | nil => exact ⟨rfl, rfl⟩
  | cons it rest ih =>
      obtain ⟨flags, upd⟩ := it
      have hhd : flags idx ≠ 1 := hfl (flags, upd) (List.mem_cons_self _ _)
      have htl : ∀ fl ∈ rest, fl.1 idx ≠ 1 :=
        fun fl hf => hfl fl (List.mem_cons_of_mem _ hf)
      rw [iterFinalize4]
      have hrec := ih
        (finalizeUpdate4 cexp gain flags params upd fMapP dMap scaledCf
          nTime nFreq nAnt nDir).1
        (finalizeUpdate4 cexp gain flags params upd fMapP dMap scaledCf
          nTime nFreq nAnt nDir).2
        htl
      refine ⟨?_, ?_⟩
      · rw [hrec.1]
        exact finalizeUpdate4_offdiag cexp gain flags params upd fMapP dMap
          scaledCf nTime nFreq nAnt nDir idx hhd 1 (Or.inl rfl)
      · rw [hrec.2]
        exact finalizeUpdate4_offdiag cexp gain flags params upd fMapP dMap
          scaledCf nTime nFreq nAnt nDir idx hhd 2 (Or.inr rfl)

/-- Witness for C10: one iteration over a never-hard-flagged cell keeps the
off-diagonal entries at their initial value `7`. -/
theorem delay_offdiagonal_retained_witness :
    (iterFinalize4 (K := ℚ) id id id (fun _ => 1) 1 1 1 1
        [(fun _ => 0, fun _ _ => 0)] ((fun _ _ => 7), (fun _ _ => 0))).1
        (0, 0, 0, 0) 1 = 7
    ∧ (iterFinalize4 (K := ℚ) id id id (fun _ => 1) 1 1 1 1
        [(fun _ => 0, fun _ _ => 0)] ((fun _ _ => 7), (fun _ _ => 0))).1
        (0, 0, 0, 0) 2 = 7 :=
  delay_offdiagonal_retained ℚ id id id (fun _ => 1) 1 1 1 1
    [(fun _ => 0, fun _ _ => 0)] (fun _ _ => 7) (fun _ _ => 0) (0, 0, 0, 0)
    (by
      rintro fl hf
      simp only [List.mem_singleton] at hf
      subst hf
      decide)

/-- Counterexample to C8 as stated: a 4-correlation visibility whose only
non-finite datum sits on an off-diagonal correlation (index 1) is NOT
flagged by preprocessing, although its datum is replaced by zero. -/
theorem preprocess_nonfinite_cex :
    (fun (_ _ : ℕ) (k : Fin 4) =>
        if k = 1 then (none : Option (ℚ × ℚ)) else some (1, 0)) 0 0 1 = none
    ∧ @preprocessFlags 3
        (fun _ _ k => if k = 1 then none else some (1, 0))
        (fun _ _ _ => 1) (fun _ _ _ => false) (fun _ => false) 0 0 =
        false := by
  exact ⟨rfl, by decide⟩

/-! ## Concrete evaluations of the embedded functions -/

example : makeFMapsFloat [1, 2, 1, 1] 2 = [0, 0, 1, 1] := by
  norm_num [makeFMapsFloat, fMapGo]

example : makeFMapsFloat [7, 7, 7] 3 = [0, 1, 2] := by
  norm_num [makeFMapsFloat, fMapGo]

example : makeFMapsFloat [1, 1, 1, 1, 1] 2 = [0, 0, 1, 1, 2] := by
  norm_num [makeFMapsFloat, fMapGo]

example :
    (gnLoop (fun n : ℕ => n + 1) (fun n => if 2 ≤ n then 1 else 0)
      (1 / 2) 5 0).1 = 2 := by
  norm_num [gnLoop]

example :
    (gnLoop (fun n : ℕ => n + 1) (fun _ => 0) (1 / 2) 5 0).1 = 5 := by
  norm_num [gnLoop]

example : madMergeFlags (fun _ _ => true) (fun _ _ => -1) 0 0 = 1 := by
  decide

example :
    @initialiseFlags 3 (fun _ _ _ => (1, 0)) (fun _ _ _ => 1)
      (fun _ _ _ => false) (fun _ => false) 0 0 = false := by decide

example :
    @initialiseFlags 3 (fun _ _ k => if k = 0 then (0, 0) else (1, 0))
      (fun _ _ _ => 1) (fun _ _ _ => false) (fun _ => false) 0 0 = true := by
  decide
